import Mathlib

/-!
# Verification of the `prototype-zne` core against its specification

Shallow embedding of the zero-noise-extrapolation (ZNE) prototype:
the folding-based noise amplifiers (`zne/noise_amplification/folding_amplifier/`),
the extrapolator validation pipeline (`zne/extrapolation/`), and the strategy
orchestrator (`zne/zne_strategy.py`).  Real numbers of the source are modelled
by `ℚ` (the source performs exact-by-intent arithmetic on small literals),
Python `round` by round-half-to-even, and Python `divmod` by `Int.fdiv`/`Int.fmod`.
-/

namespace ZNE

/-- Non-fatal warnings emitted by the source (`warnings.warn` calls). -/
inductive ZWarning where
  | nothingToFold
  | rounding
  | unordered
  | duplicates
  deriving DecidableEq

/-- Errors raised by the source (`TypeError` / `ValueError`); the insufficient-data
`ValueError` of `Extrapolator._validate_min_points` names both counts. -/
inductive ZNEError where
  | typeError
  | valueError
  | insufficientData (points : ℕ) (minPoints : ℕ)
  deriving DecidableEq

/-- Python `round` on an exact value: round half to even (banker's rounding). -/
def pythonRound (q : ℚ) : ℤ :=
  let f := ⌊q⌋
  let r := q - (f : ℚ)
  if r < 1 / 2 then f
  else if 1 / 2 < r then f + 1
  else if f % 2 = 0 then f else f + 1

/-- Embeds `FoldingAmplifier.folding_to_noise_factor`: `2 * folding + 1`. -/
def foldingToNoiseFactor (folding : ℚ) : ℚ :=
  2 * folding + 1

/-- Sub-folding selection policy (`sub_folding_option`). -/
inductive SubFoldingOption where
  | fromFirst
  | fromLast
  | random
  deriving DecidableEq

/-- Configuration of `FoldingAmplifier.__init__`.  The seeded generator behind the
`random` policy is modelled by the oracle `randomChoice n size`, standing for the
sorted output of `rng.choice(n, size=size, replace=False)`. -/
structure FoldingConfig where
  subFoldingOption : SubFoldingOption
  barriers : Bool
  warnUser : Bool
  tolerance : ℚ
  randomChoice : ℕ → ℕ → List ℕ

/-- Embeds `FoldingAmplifier._compute_folding_nums`.  Returns the `(full, sub)` folding
plan together with the warnings emitted.  The zero-units warning goes through
`self.warn` (gated by `warn_user`); the rounding warning is an ungated `warn`. -/
def computeFoldingNums (cfg : FoldingConfig) (noiseFactor : ℚ) (numInstructions : ℕ) :
    (ℤ × ℤ) × List ZWarning :=
  if numInstructions = 0 then
    ((0, 0), if cfg.warnUser then [ZWarning.nothingToFold] else [])
  else
    let numFoldings : ℤ := pythonRound ((numInstructions : ℚ) * (noiseFactor - 1) / 2)
    let closestNoiseFactor : ℚ := foldingToNoiseFactor ((numFoldings : ℚ) / (numInstructions : ℚ))
    let relativeError : ℚ := |closestNoiseFactor - noiseFactor| / noiseFactor
    let warns := if cfg.tolerance < relativeError then [ZWarning.rounding] else []
    ((numFoldings.fdiv (numInstructions : ℤ), numFoldings.fmod (numInstructions : ℤ)), warns)

/-- An operation (`CircuitInstruction`): a name, the qubits it acts on, and a
dagger flag so that inversion is involutive and name-preserving. -/
structure Op where
  name : String
  qubits : List ℕ
  dagger : Bool
  deriving DecidableEq

/-- Embeds `Instruction.inverse()`. -/
def Op.inverse (op : Op) : Op :=
  { op with dagger := !op.dagger }

/-- A barrier instruction over the given qubits. -/
def mkBarrier (qubits : List ℕ) : Op :=
  ⟨"barrier", qubits, false⟩

/-- The barrier emitted by `circuit.barrier()` with no arguments (all registers). -/
def globalBarrier : Op :=
  mkBarrier []

/-- Embeds `QuantumCircuit.inverse()`: reverse the order and invert each instruction. -/
def circuitInverse (c : List Op) : List Op :=
  (c.map Op.inverse).reverse

/-- The operations of a circuit that are not barrier markers. -/
def nonBarrierOps (c : List Op) : List Op :=
  c.filter (fun op => op.name ≠ "barrier")

/-- Embeds `FoldingAmplifier._apply_barrier` for the global amplifier (no registers). -/
def applyBarrierG (cfg : FoldingConfig) (c : List Op) : List Op :=
  if cfg.barriers then c ++ [globalBarrier] else c

/-- Embeds `GlobalFoldingAmplifier._apply_full_folding`: alternately compose the circuit
and its inverse `2 * numFoldings + 1` times, a barrier after each block. -/
def applyFullFolding (cfg : FoldingConfig) (noisy original : List Op) (numFoldings : ℕ) :
    List Op :=
  (List.range (2 * numFoldings + 1)).foldl
    (fun acc i =>
      applyBarrierG cfg (acc ++ (if i % 2 = 0 then original else circuitInverse original)))
    noisy

/-- Embeds `GlobalFoldingAmplifier._get_sub_folding`: the slice of the original circuit
selected for sub-folding (only invoked with `0 < size`). -/
def getSubFolding (cfg : FoldingConfig) (c : List Op) (size : ℕ) : List Op :=
  match cfg.subFoldingOption with
  | .fromFirst => c.take size
  | .fromLast => c.drop (c.length - size)
  | .random => (cfg.randomChoice c.length size).filterMap (fun i => c.get? i)

/-- Embeds `GlobalFoldingAmplifier._apply_sub_folding`. -/
def applySubFolding (cfg : FoldingConfig) (noisy original : List Op) (numFoldings : ℕ) :
    List Op :=
  if numFoldings = 0 then noisy
  else
    let sub := getSubFolding cfg original numFoldings
    noisy ++ circuitInverse sub ++ sub

/-- Embeds `GlobalFoldingAmplifier.amplify_circuit_noise`. -/
def globalFoldingAmplify (cfg : FoldingConfig) (circuit : List Op) (noiseFactor : ℚ) :
    Except ZNEError (List Op × List ZWarning) :=
  if noiseFactor < 1 then .error .valueError
  else
    let result := computeFoldingNums cfg noiseFactor circuit.length
    let fullFolded := applyFullFolding cfg [] circuit result.1.1.toNat
    .ok (applySubFolding cfg fullFolded circuit result.1.2.toNat, result.2)

/-- Configuration of `LocalFoldingAmplifier.__init__`: the base folding options
plus the optional `gates_to_fold` set of names and arities. -/
structure LocalFoldingConfig where
  base : FoldingConfig
  gatesToFold : Option (List (ℕ ⊕ String))

/-- Embeds `LocalFoldingAmplifier._check_gate_folds`: barrier and measure instructions
are never folded; otherwise fold when `gates_to_fold` is `None` or contains the
arity or the name of the operation. -/
def checkGateFolds (gatesToFold : Option (List (ℕ ⊕ String))) (op : Op) : Bool :=
  if op.name = "barrier" ∨ op.name = "measure" then false
  else
    match gatesToFold with
    | none => true
    | some gs => gs.contains (Sum.inl op.qubits.length) || gs.contains (Sum.inr op.name)

/-- Embeds `LocalFoldingAmplifier._build_sub_foldings`: one extra folding for each of the
`numSubFoldings` selected foldable gates. -/
def buildSubFoldings (cfg : FoldingConfig) (numSubFoldings numGatesToFold : ℕ) : List ℕ :=
  if numSubFoldings = 0 then List.replicate numGatesToFold 0
  else
    match cfg.subFoldingOption with
    | .fromFirst =>
        List.replicate numSubFoldings 1 ++ List.replicate (numGatesToFold - numSubFoldings) 0
    | .fromLast =>
        List.replicate (numGatesToFold - numSubFoldings) 0 ++ List.replicate numSubFoldings 1
    | .random =>
        (List.range numGatesToFold).map
          (fun i => if (cfg.randomChoice numGatesToFold numSubFoldings).contains i then 1 else 0)

/-- Embeds `LocalFoldingAmplifier._build_foldings`. -/
def buildFoldings (cfg : FoldingConfig) (noiseFactor : ℚ) (numGatesToFold : ℕ) :
    List ℕ × List ZWarning :=
  let r := computeFoldingNums cfg noiseFactor numGatesToFold
  ((buildSubFoldings cfg r.1.2.toNat numGatesToFold).map (fun sf => r.1.1.toNat + sf), r.2)

/-- The list comprehension `[foldings.pop(0) if m else 0 for m in mask]`. -/
def distributeFoldings : List Bool → List ℕ → List ℕ
  | [], _ => []
  | true :: ms, f :: fs => f :: distributeFoldings ms fs
  | true :: ms, [] => 0 :: distributeFoldings ms []
  | false :: ms, fs => 0 :: distributeFoldings ms fs

/-- Embeds `LocalFoldingAmplifier._build_foldings_per_gate`. -/
def buildFoldingsPerGate (cfg : LocalFoldingConfig) (c : List Op) (noiseFactor : ℚ) :
    List ℕ × List ZWarning :=
  let mask := c.map (checkGateFolds cfg.gatesToFold)
  let r := buildFoldings cfg.base noiseFactor (mask.count true)
  (distributeFoldings mask r.1, r.2)

/-- Embeds `FoldingAmplifier._apply_barrier` over the operation qubits. -/
def applyBarrierL (cfg : FoldingConfig) (qubits : List ℕ) : List Op :=
  if cfg.barriers then [mkBarrier qubits] else []

/-- Embeds `LocalFoldingAmplifier._append_folded` (recursion on the folding count). -/
def appendFolded (cfg : FoldingConfig) (op : Op) : ℕ → List Op
  | 0 => applyBarrierL cfg op.qubits ++ [op] ++ applyBarrierL cfg op.qubits
  | k + 1 =>
      applyBarrierL cfg op.qubits ++ [op] ++ applyBarrierL cfg op.qubits ++ [op.inverse] ++
        appendFolded cfg op k

/-- One iteration of the loop in `LocalFoldingAmplifier.amplify_circuit_noise`:
pass the operation through when its folding count is zero, expand it otherwise. -/
def expandOperation (cfg : FoldingConfig) (op : Op) (numFoldings : ℕ) : List Op :=
  if numFoldings = 0 then [op] else appendFolded cfg op numFoldings

/-- Embeds `LocalFoldingAmplifier.amplify_circuit_noise`. -/
def localFoldingAmplify (cfg : LocalFoldingConfig) (c : List Op) (noiseFactor : ℚ) :
    Except ZNEError (List Op × List ZWarning) :=
  if noiseFactor < 1 then .error .valueError
  else
    let r := buildFoldingsPerGate cfg c noiseFactor
    .ok (((List.zip c r.1).map (fun p => expandOperation cfg.base p.1 p.2)).join, r.2)

/-- A Python value as seen by the `isreal` check: a real number or anything else. -/
inductive PyVal where
  | real (q : ℚ)
  | nonReal
  deriving DecidableEq

/-- The `noise_factors` assignment argument: a sequence of values, or an object
that is not a `Sequence` at all. -/
inductive NoiseFactorsInput where
  | seq (xs : List PyVal)
  | notSeq

/-- The per-element loop of `ZNEStrategy._validate_noise_factors`: `TypeError`
on the first non-real element, `ValueError` on the first element `< 1`. -/
def validateElements : List PyVal → Except ZNEError (List ℚ)
  | [] => .ok []
  | .nonReal :: _ => .error .typeError
  | .real q :: t =>
      if q < 1 then .error .valueError
      else
        match validateElements t with
        | .error e => .error e
        | .ok r => .ok (q :: r)

/-- Python `tuple(sorted(xs))` on reals. -/
def pySorted (xs : List ℚ) : List ℚ :=
  List.insertionSort (· ≤ ·) xs

/-- Python `tuple(sorted(set(xs)))` on reals. -/
def pySortedSet (xs : List ℚ) : List ℚ :=
  List.insertionSort (· ≤ ·) xs.dedup

/-- Embeds `ZNEStrategy._validate_noise_factors`: type/emptiness/element checks, then
sorting (warning if it changed the tuple), then de-duplication (warning if it
changed the tuple). -/
def validateNoiseFactors : NoiseFactorsInput → Except ZNEError (List ℚ × List ZWarning)
  | .notSeq => .error .typeError
  | .seq xs =>
      if xs.isEmpty then .error .valueError
      else
        match validateElements xs with
        | .error e => .error e
        | .ok reals =>
            let sorted := pySorted reals
            let w1 : List ZWarning := if sorted ≠ reals then [.unordered] else []
            let deduped := pySortedSet sorted
            let w2 : List ZWarning := if deduped ≠ sorted then [.duplicates] else []
            .ok (deduped, w1 ++ w2)

/-- Embeds `ZNEStrategy.performs_noise_amplification`: any noise factor above one. -/
def performsNoiseAmplification (noiseFactors : List ℚ) : Bool :=
  noiseFactors.any (fun nf => decide (1 < nf))

/-- Embeds `ZNEStrategy.num_noise_factors`. -/
def numNoiseFactors (noiseFactors : List ℚ) : ℕ :=
  noiseFactors.length

/-- Embeds `ZNEStrategy.performs_zne`: amplification and more than one noise factor. -/
def performsZNE (noiseFactors : List ℚ) : Bool :=
  performsNoiseAmplification noiseFactors && decide (1 < numNoiseFactors noiseFactors)

/-- Embeds `ZNEStrategy.is_noop`. -/
def isNoop (noiseFactors : List ℚ) : Bool :=
  !performsNoiseAmplification noiseFactors && !performsZNE noiseFactors

/-- Per-experiment metadata: a string-keyed dictionary of numbers. -/
abbrev Metadata := List (String × ℚ)

/-- Embeds `ZNEStrategy._regression_data_from_result_group`: after the group-size check,
zip the configured noise factors with the group's values and the raw variances
`md.get("variance", 0)` into 3-tuples. -/
def regressionDataFromResultGroup (noiseFactors values : List ℚ)
    (metadata : List Metadata) : Except ZNEError (List (ℚ × ℚ × ℚ)) :=
  if values.length ≠ noiseFactors.length then .error .valueError
  else
    .ok (List.zipWith3 (fun nf v md => (nf, v, (List.lookup "variance" md).getD 0))
      noiseFactors values metadata)

/-- Exact square root for perfect-square rationals (used only to state the
spec's `sigma_y = sqrt(variance)`). -/
def ratSqrt (q : ℚ) : ℚ :=
  (Nat.sqrt q.num.toNat : ℚ) / (Nat.sqrt q.den : ℚ)

/-- Modelled from the spec: the uncertainty the claim attaches to each regression
point, `sigma_y = sqrt(variance)` with the variance defaulting to `1` when the
key is absent from the metadata. -/
def claimSigmaY (md : Metadata) : ℚ :=
  ratSqrt ((List.lookup "variance" md).getD 1)

/-- Modelled from the spec: the claim's `sigma_x`, always `1`. -/
def claimSigmaX : ℚ := 1

/-- Embeds `CACHE_MAXSIZE` in `ZNEStrategy.amplify_circuit_noise`. -/
def zneCacheMaxSize : ℕ := 256

/-- A ZNE cache key: `(circuit fingerprint, noise factor)`. -/
abbrev CacheKey := ℕ × ℚ

/-- Dictionary lookup in the amplification cache. -/
def cacheLookup (key : CacheKey) : List (CacheKey × List Op) → Option (List Op)
  | [] => none
  | (k, v) :: t => if k = key then some v else cacheLookup key t

/-- Embeds `ZNEStrategy.amplify_circuit_noise`: cached amplification.  Returns the noisy
circuit, the new cache state, and whether the amplifier was invoked.  The
`_circuit_key` fingerprint and the underlying amplifier are parameters. -/
def amplifyCircuitNoiseCached (amplifier : List Op → ℚ → List Op)
    (fingerprint : List Op → ℕ) (cache : List (CacheKey × List Op))
    (circuit : List Op) (noiseFactor : ℚ) :
    List Op × List (CacheKey × List Op) × Bool :=
  let key : CacheKey := (fingerprint circuit, noiseFactor)
  match cacheLookup key cache with
  | some noisy => (noisy, cache, false)
  | none =>
      let noisy := amplifier circuit noiseFactor
      (noisy, if cache.length < zneCacheMaxSize then cache ++ [(key, noisy)] else cache, true)

/-- The data argument of `Extrapolator.extrapolate_zero`: a sequence of values,
or an object that is not a `Sequence`. -/
inductive DataInput where
  | seq (xs : List PyVal)
  | notSeq

/-- The `all(isreal(d) for d in data)` check, keeping the values on success. -/
def allReals : List PyVal → Option (List ℚ)
  | [] => some []
  | .real q :: t => (allReals t).map (fun r => q :: r)
  | .nonReal :: _ => none

/-- Embeds `Extrapolator._validate_data`. -/
def validateData : DataInput → Except ZNEError (List ℚ)
  | .notSeq => .error .typeError
  | .seq xs =>
      match allReals xs with
      | some r => .ok r
      | none => .error .typeError

/-- Embeds `Extrapolator._validate_sigma`: default to all-ones of the given size. -/
def validateSigma (sigma : Option DataInput) (defaultSize : ℕ) : Except ZNEError (List ℚ) :=
  match sigma with
  | none => validateData (.seq (List.replicate defaultSize (.real 1)))
  | some s => validateData s

/-- Embeds `Extrapolator._cross_validate_data_sigma`: all four inputs of one size. -/
def crossValidateSizes (x y sx sy : List ℚ) : Except ZNEError Unit :=
  if x.length = y.length ∧ y.length = sx.length ∧ sx.length = sy.length then .ok ()
  else .error .valueError

/-- Embeds `Extrapolator._validate_min_points`: the number of distinct data points must
reach `min_points`, else a `ValueError` naming both counts. -/
def validateMinPoints (minPoints : ℕ) (x : List ℚ) : Except ZNEError Unit :=
  let numPoints := x.dedup.length
  if numPoints < minPoints then .error (.insufficientData numPoints minPoints) else .ok ()

/-- Embeds `Extrapolator.extrapolate_zero` up to the hand-off to the concrete model
(`_extrapolate_zero` performs the numerical fit and is outside this embedding):
the validated four tuples are returned on success. -/
def extrapolateZeroValidate (minPoints : ℕ) (x y : DataInput) (sx sy : Option DataInput) :
    Except ZNEError (List ℚ × List ℚ × List ℚ × List ℚ) := do
  let xd ← validateData x
  let yd ← validateData y
  let sxd ← validateSigma sx xd.length
  let syd ← validateSigma sy yd.length
  let _ ← crossValidateSizes xd yd sxd syd
  let _ ← validateMinPoints minPoints xd
  return (xd, yd, sxd, syd)

/-- Embeds `PolynomialExtrapolator.min_points`: `degree + 1`. -/
def polyMinPoints (degree : ℕ) : ℕ :=
  degree + 1

/-- Embeds `MultiExponentialExtrapolator.min_points`: `num_terms * 2 + 1`. -/
def multiExpMinPoints (numTerms : ℕ) : ℕ :=
  numTerms * 2 + 1

/-- The arguments handed to `scipy.optimize.curve_fit` by an extrapolator. -/
structure CurveFitArgs where
  xdata : List ℚ
  ydata : List ℚ
  sigma : List ℚ
  absoluteSigma : Bool
  p0 : List ℚ
  deriving DecidableEq

/-- The `curve_fit` call inside `PolynomialExtrapolator._infer`: `sigma_y` is
passed through unchanged, `absolute_sigma=True`, and the initial guess is the
zero vector of length `degree + 1`. -/
def polyCurveFitArgs (degree : ℕ) (x y sy : List ℚ) : CurveFitArgs :=
  ⟨x, y, sy, true, List.replicate (degree + 1) 0⟩

/-- Embeds `numpy.isclose(sigma / value, 0)` for one data point: `|sigma / value|` at
most the absolute tolerance `1e-8`.  A zero value yields `inf`/`nan` in the
source, which is never close to zero. -/
def isCloseZeroRatio (value sigma : ℚ) : Bool :=
  decide (value ≠ 0) && decide (|sigma / value| ≤ 1 / 100000000)

/-- Embeds `OLSExtrapolator._compute_sigma`: all-ones sigma when any relative error is
numerically zero, the given `sigma_y` otherwise. -/
def computeSigma (ydata sigmay : List ℚ) : List ℚ :=
  if (List.zip sigmay ydata).any (fun p => isCloseZeroRatio p.2 p.1) then
    List.replicate sigmay.length 1
  else sigmay

/-- The `curve_fit` call inside `MultiExponentialExtrapolator._extrapolate_zero`:
sigma goes through `_compute_sigma`, `absolute_sigma=True`, and the initial
guess is `[2 ** (-i) for i in range(num_terms * 2 + 1)]`. -/
def multiExpCurveFitArgs (numTerms : ℕ) (x y sy : List ℚ) : CurveFitArgs :=
  ⟨x, y, computeSigma y sy, true, (List.range (numTerms * 2 + 1)).map (fun i => 1 / 2 ^ i)⟩

end ZNE

namespace ZNE

/-! ## Claims about the folding plan and global folding -/

/-- Helper: `pythonRound` of a non-negative rational is non-negative. -/
theorem pythonRound_nonneg {q : ℚ} (h : 0 ≤ q) : 0 ≤ pythonRound q := by
  have hf : (0 : ℤ) ≤ ⌊q⌋ := Int.floor_nonneg.mpr h
  unfold pythonRound
  dsimp only
  split
  · exact hf
  · split
    · omega
    · split <;> omega

/-- C3: for `noise_factor ≥ 1`, `_compute_folding_nums` returns `(0, 0)` with the
nothing-to-fold warning when `unit_count = 0`, and otherwise returns exactly
`(foldings // unit_count, foldings % unit_count)` for
`foldings = round(unit_count * (noise_factor - 1) / 2)`; both components are
non-negative and the sub-folding count is strictly below `unit_count`. -/
theorem compute_folding_nums_spec (cfg : FoldingConfig) (noiseFactor : ℚ) (n : ℕ)
    (hnf : 1 ≤ noiseFactor) (hw : cfg.warnUser = true) :
    (n = 0 → computeFoldingNums cfg noiseFactor n = ((0, 0), [ZWarning.nothingToFold])) ∧
    (0 < n →
      let foldings := pythonRound ((n : ℚ) * (noiseFactor - 1) / 2)
      (computeFoldingNums cfg noiseFactor n).1 =
        (foldings.fdiv (n : ℤ), foldings.fmod (n : ℤ)) ∧
      0 ≤ (computeFoldingNums cfg noiseFactor n).1.1 ∧
      0 ≤ (computeFoldingNums cfg noiseFactor n).1.2 ∧
      (computeFoldingNums cfg noiseFactor n).1.2 < (n : ℤ)) := by
  constructor
  · intro hn
    subst hn
    simp [computeFoldingNums, hw]
  · intro hn
    have hne : n ≠ 0 := by omega
    have hnz : (0 : ℤ) < (n : ℤ) := by exact_mod_cast hn
    have harg : 0 ≤ (n : ℚ) * (noiseFactor - 1) / 2 := by
      have h1 : (0 : ℚ) ≤ (n : ℚ) := by positivity
      have h2 : (0 : ℚ) ≤ noiseFactor - 1 := by linarith
      positivity
    have hfold := pythonRound_nonneg harg
    refine ⟨?_, ?_, ?_, ?_⟩
    · simp [computeFoldingNums, hne]
    · simp only [computeFoldingNums, hne, if_false]
      rw [Int.fdiv_eq_ediv _ (le_of_lt hnz)]
      exact Int.ediv_nonneg hfold (le_of_lt hnz)
    · simp only [computeFoldingNums, hne, if_false]
      rw [Int.fmod_eq_emod _ (le_of_lt hnz)]
      exact Int.emod_nonneg _ (ne_of_gt hnz)
    · simp only [computeFoldingNums, hne, if_false]
      rw [Int.fmod_eq_emod _ (le_of_lt hnz)]
      exact Int.emod_lt_of_pos _ hnz

/-- C3 witness: concrete evaluation at `noise_factor = 3`, `unit_count = 4` and
`unit_count = 0`. -/
theorem compute_folding_nums_spec_witness :
    let cfg : FoldingConfig := ⟨.fromFirst, true, true, 1 / 100, fun _ _ => []⟩
    (computeFoldingNums cfg 3 0 = ((0, 0), [ZWarning.nothingToFold])) ∧
    (computeFoldingNums cfg 3 4).1 = (1, 0) ∧
    0 ≤ (computeFoldingNums cfg 3 4).1.2 ∧
    (computeFoldingNums cfg 3 4).1.2 < (4 : ℤ) := by
  intro cfg
  have h := compute_folding_nums_spec cfg 3 4 (by norm_num) rfl
  have h0 := compute_folding_nums_spec cfg 3 0 (by norm_num) rfl
  refine ⟨h0.1 rfl, ?_, (h.2 (by norm_num)).2.2.1, (h.2 (by norm_num)).2.2.2⟩
  · have hr := (h.2 (by norm_num)).1
    have harg : ((4 : ℕ) : ℚ) * (3 - 1) / 2 = (4 : ℚ) := by norm_num
    have hv : pythonRound (4 : ℚ) = 4 := by norm_num [pythonRound]
    rw [hr, harg, hv]
    decide

/-- Filtering out barriers distributes over concatenation. -/
theorem nonBarrierOps_append (a b : List Op) :
    nonBarrierOps (a ++ b) = nonBarrierOps a ++ nonBarrierOps b := by
  simp [nonBarrierOps]

/-- A circuit without barrier markers is fixed by `nonBarrierOps`. -/
theorem nonBarrierOps_eq_self {s : List Op} (h : ∀ op ∈ s, op.name ≠ "barrier") :
    nonBarrierOps s = s := by
  rw [nonBarrierOps, List.filter_eq_self]
  intro a ha
  exact decide_eq_true (h a ha)

/-- Inversion preserves operation names, so it preserves barrier-freeness. -/
theorem circuitInverse_nonbarrier {s : List Op} (h : ∀ op ∈ s, op.name ≠ "barrier") :
    ∀ op ∈ circuitInverse s, op.name ≠ "barrier" := by
  intro op hop
  rw [circuitInverse, List.mem_reverse, List.mem_map] at hop
  obtain ⟨x, hx, rfl⟩ := hop
  exact h x hx

/-- With `noise_factor = 1` the folding plan is always `(0, 0)`. -/
theorem computeFoldingNums_one (cfg : FoldingConfig) (n : ℕ) :
    (computeFoldingNums cfg 1 n).1 = (0, 0) := by
  by_cases hn : n = 0
  · simp [computeFoldingNums, hn]
  · have hz : ((n : ℚ) * (1 - 1) / 2) = 0 := by ring
    have hv : pythonRound (0 : ℚ) = 0 := by norm_num [pythonRound]
    simp only [computeFoldingNums, hn, if_false, hz, hv]
    simp [Int.fdiv, Int.fmod]

/-- C4: amplifying any operation sequence with `noise_factor = 1` applies zero
foldings; the output is exactly the input sequence (followed by one barrier
marker when barriers are enabled), so its operations are exactly those of the
input. -/
theorem global_folding_noise_factor_one_spec (cfg : FoldingConfig) (s : List Op) :
    (computeFoldingNums cfg 1 s.length).1 = (0, 0) ∧
    globalFoldingAmplify cfg s 1 =
      .ok (s ++ (if cfg.barriers then [globalBarrier] else []),
        (computeFoldingNums cfg 1 s.length).2) ∧
    nonBarrierOps (s ++ (if cfg.barriers then [globalBarrier] else [])) = nonBarrierOps s := by
  have hplan := computeFoldingNums_one cfg s.length
  refine ⟨hplan, ?_, ?_⟩
  · have hnotlt : ¬((1 : ℚ) < 1) := lt_irrefl 1
    simp only [globalFoldingAmplify, hnotlt, if_false, hplan]
    have hfull : applyFullFolding cfg [] s ((0 : ℤ)).toNat =
        s ++ (if cfg.barriers then [globalBarrier] else []) := by
      cases hb : cfg.barriers <;>
        simp [applyFullFolding, applyBarrierG, hb, List.range_succ]
    rw [hfull]
    simp [applySubFolding]
  · cases hb : cfg.barriers <;>
      simp [hb, nonBarrierOps_append, nonBarrierOps, globalBarrier, mkBarrier]

/-- The folding plan for `noise_factor = 3` on four instructions is `(1, 0)`. -/
theorem computeFoldingNums_three_four (cfg : FoldingConfig) :
    (computeFoldingNums cfg 3 4).1 = (1, 0) := by
  have harg : ((4 : ℕ) : ℚ) * (3 - 1) / 2 = (4 : ℚ) := by norm_num
  have hv : pythonRound (4 : ℚ) = 4 := by norm_num [pythonRound]
  simp only [computeFoldingNums]
  norm_num [harg, hv]

/-- C6: on a 4-operation sequence with `noise_factor = 3`, global folding computes
the plan `(full = 1, sub = 0)` and the amplified sequence constitutes, barriers
aside, the original sequence, then its inverse, then the original again — 12
operations in total. -/
theorem global_folding_example_spec (cfg : FoldingConfig) (s : List Op)
    (hlen : s.length = 4) (hnb : ∀ op ∈ s, op.name ≠ "barrier") :
    (computeFoldingNums cfg 3 s.length).1 = (1, 0) ∧
    ∃ out warns, globalFoldingAmplify cfg s 3 = .ok (out, warns) ∧
      nonBarrierOps out = s ++ circuitInverse s ++ s ∧
      (nonBarrierOps out).length = 12 := by
  have hplan : (computeFoldingNums cfg 3 s.length).1 = (1, 0) := by
    rw [hlen]; exact computeFoldingNums_three_four cfg
  refine ⟨hplan, ?_⟩
  have hnotlt : ¬((3 : ℚ) < 1) := by norm_num
  have hfull : applyFullFolding cfg [] s ((1 : ℤ)).toNat =
      if cfg.barriers then
        s ++ [globalBarrier] ++ circuitInverse s ++ [globalBarrier] ++ s ++ [globalBarrier]
      else s ++ circuitInverse s ++ s := by
    cases hb : cfg.barriers <;>
      simp [applyFullFolding, applyBarrierG, hb, List.range_succ]
  refine ⟨applySubFolding cfg (applyFullFolding cfg [] s ((1 : ℤ)).toNat) s ((0 : ℤ)).toNat,
    (computeFoldingNums cfg 3 s.length).2, ?_, ?_⟩
  · simp only [globalFoldingAmplify, hnotlt, if_false, hplan]
  · have hsub : applySubFolding cfg (applyFullFolding cfg [] s ((1 : ℤ)).toNat) s
        ((0 : ℤ)).toNat = applyFullFolding cfg [] s ((1 : ℤ)).toNat := by
      simp [applySubFolding]
    rw [hsub, hfull]
    have hs : nonBarrierOps s = s := nonBarrierOps_eq_self hnb
    have hi : nonBarrierOps (circuitInverse s) = circuitInverse s :=
      nonBarrierOps_eq_self (circuitInverse_nonbarrier hnb)
    have hbarrier : ∀ l : List Op, nonBarrierOps (globalBarrier :: l) = nonBarrierOps l := by
      intro l
      simp [nonBarrierOps, globalBarrier, mkBarrier]
    have hilen : (circuitInverse s).length = s.length := by
      simp [circuitInverse]
    cases hb : cfg.barriers
    · simp only [if_neg (by simp : ¬(false = true))]
      constructor
      · simp [nonBarrierOps_append, hs, hi]
      · simp [nonBarrierOps_append, hs, hi, hilen, hlen]
    · have hnil : nonBarrierOps ([] : List Op) = [] := rfl
      simp only [if_pos rfl]
      constructor
      · simp [nonBarrierOps_append, hbarrier, hs, hi, hnil]
      · simp [nonBarrierOps_append, hbarrier, hs, hi, hnil, hilen, hlen]

/-- C6 witness: a concrete 4-operation barrier-free sequence. -/
theorem global_folding_example_spec_witness :
    let cfg : FoldingConfig := ⟨.fromFirst, true, true, 1 / 100, fun _ _ => []⟩
    let s : List Op := [⟨"h", [0], false⟩, ⟨"cx", [0, 1], false⟩,
      ⟨"x", [1], false⟩, ⟨"cx", [1, 2], false⟩]
    (computeFoldingNums cfg 3 s.length).1 = (1, 0) ∧
    ∃ out warns, globalFoldingAmplify cfg s 3 = .ok (out, warns) ∧
      nonBarrierOps out = s ++ circuitInverse s ++ s ∧
      (nonBarrierOps out).length = 12 := by
  intro cfg s
  exact global_folding_example_spec cfg s (by decide) (by decide)

/-! ## Claims about the local folding amplifier -/

/-- Positions masked `false` receive a folding count of zero. -/
theorem distributeFoldings_get_false :
    ∀ (ms : List Bool) (fs : List ℕ) (i : ℕ), ms.get? i = some false →
      (distributeFoldings ms fs).get? i = some 0 := by
  intro ms
  induction ms with
  | nil => intro fs i h; simp at h
  | cons m ms ih =>
      intro fs i h
      cases m
      · cases i with
        | zero => cases fs <;> simp [distributeFoldings]
        | succ j =>
            simp only [List.get?] at h
            cases fs <;> exact (by simpa [distributeFoldings] using ih _ j h)
      · cases i with
        | zero => simp at h
        | succ j =>
            simp only [List.get?] at h
            cases fs with
            | nil => simpa [distributeFoldings] using ih [] j h
            | cons f fs => simpa [distributeFoldings] using ih fs j h

/-- Distribution keeps the mask's length. -/
theorem distributeFoldings_length :
    ∀ (ms : List Bool) (fs : List ℕ), (distributeFoldings ms fs).length = ms.length := by
  intro ms
  induction ms with
  | nil => intro fs; simp [distributeFoldings]
  | cons m ms ih =>
      intro fs
      cases m
      · cases fs <;> simp [distributeFoldings, ih]
      · cases fs <;> simp [distributeFoldings, ih]

/-- C10: the local folding amplifier never folds a barrier or measure operation,
whatever `gates_to_fold` contains: its per-gate folding count is zero, the
output is the concatenation of per-operation expansions, and the expansion at
such a position is the operation itself, passed through exactly once. -/
theorem local_folding_barrier_measure_spec (cfg : LocalFoldingConfig) (c : List Op)
    (noiseFactor : ℚ) (hnf : 1 ≤ noiseFactor) (i : ℕ) (hi : i < c.length)
    (hname : (c.get ⟨i, hi⟩).name = "barrier" ∨ (c.get ⟨i, hi⟩).name = "measure") :
    (buildFoldingsPerGate cfg c noiseFactor).1.get? i = some 0 ∧
    localFoldingAmplify cfg c noiseFactor =
      .ok (((List.zip c (buildFoldingsPerGate cfg c noiseFactor).1).map
          (fun p => expandOperation cfg.base p.1 p.2)).join,
        (buildFoldingsPerGate cfg c noiseFactor).2) ∧
    ((List.zip c (buildFoldingsPerGate cfg c noiseFactor).1).map
        (fun p => expandOperation cfg.base p.1 p.2)).get? i = some [c.get ⟨i, hi⟩] := by
  have hmask : (c.map (checkGateFolds cfg.gatesToFold)).get? i = some false := by
    rw [List.get?_map, List.get?_eq_get hi]
    have hc : checkGateFolds cfg.gatesToFold (c.get ⟨i, hi⟩) = false := by
      unfold checkGateFolds
      rw [if_pos hname]
    rw [List.get_eq_getElem] at hc
    simp [hc]
  have hfold : (buildFoldingsPerGate cfg c noiseFactor).1.get? i = some 0 := by
    unfold buildFoldingsPerGate
    exact distributeFoldings_get_false _ _ i hmask
  refine ⟨hfold, ?_, ?_⟩
  · have hnotlt : ¬(noiseFactor < 1) := not_lt.mpr hnf
    simp only [localFoldingAmplify, hnotlt, if_false]
  · have hzip : (List.zip c (buildFoldingsPerGate cfg c noiseFactor).1).get? i =
        some (c.get ⟨i, hi⟩, 0) := by
      rw [List.get?_zip_eq_some]
      exact ⟨by rw [List.get?_eq_get hi], hfold⟩
    rw [List.get?_map, hzip]
    simp [expandOperation]

/-- C10 witness: a concrete two-operation circuit of one barrier and one measure,
with `gates_to_fold` naming both the barrier and arity 1. -/
theorem local_folding_barrier_measure_spec_witness :
    let cfg : LocalFoldingConfig :=
      ⟨⟨.fromFirst, true, true, 1 / 100, fun _ _ => []⟩,
        some [Sum.inl 1, Sum.inr "barrier", Sum.inr "measure"]⟩
    let c : List Op := [⟨"barrier", [0], false⟩, ⟨"measure", [0], false⟩]
    (buildFoldingsPerGate cfg c 3).1.get? 0 = some 0 ∧
    localFoldingAmplify cfg c 3 =
      .ok (((List.zip c (buildFoldingsPerGate cfg c 3).1).map
          (fun p => expandOperation cfg.base p.1 p.2)).join,
        (buildFoldingsPerGate cfg c 3).2) ∧
    ((List.zip c (buildFoldingsPerGate cfg c 3).1).map
        (fun p => expandOperation cfg.base p.1 p.2)).get? 0 =
      some [c.get ⟨0, by decide⟩] := by
  intro cfg c
  exact local_folding_barrier_measure_spec cfg c 3 (by norm_num) 0 (by decide) (by decide)

/-! ## Claims about the strategy orchestrator -/

/-- A cache entry survives appending further entries. -/
theorem cacheLookup_append_of_some {key : CacheKey} {cache : List (CacheKey × List Op)}
    {v : List Op} (h : cacheLookup key cache = some v) (l : List (CacheKey × List Op)) :
    cacheLookup key (cache ++ l) = some v := by
  induction cache with
  | nil => simp [cacheLookup] at h
  | cons e t ih =>
      obtain ⟨k, w⟩ := e
      by_cases hk : k = key
      · simp [cacheLookup, hk] at h ⊢
        exact h
      · simp [cacheLookup, hk] at h ⊢
        exact ih h

/-- C9: the amplification cache never exceeds its fixed capacity; a new entry is
inserted only while the cache is below capacity, existing entries are never
evicted, and a cache hit returns the stored circuit without invoking the
amplifier. -/
theorem amplify_circuit_noise_cache_spec (amplifier : List Op → ℚ → List Op)
    (fingerprint : List Op → ℕ) (cache : List (CacheKey × List Op))
    (circuit : List Op) (noiseFactor : ℚ) :
    (cache.length ≤ zneCacheMaxSize →
      (amplifyCircuitNoiseCached amplifier fingerprint cache circuit noiseFactor).2.1.length ≤
        zneCacheMaxSize) ∧
    (zneCacheMaxSize ≤ cache.length →
      (amplifyCircuitNoiseCached amplifier fingerprint cache circuit noiseFactor).2.1 = cache) ∧
    (∀ k v, cacheLookup k cache = some v →
      cacheLookup k
        (amplifyCircuitNoiseCached amplifier fingerprint cache circuit noiseFactor).2.1 =
        some v) ∧
    (∀ stored, cacheLookup (fingerprint circuit, noiseFactor) cache = some stored →
      amplifyCircuitNoiseCached amplifier fingerprint cache circuit noiseFactor =
        (stored, cache, false)) ∧
    (cacheLookup (fingerprint circuit, noiseFactor) cache = none →
      cache.length < zneCacheMaxSize →
      amplifyCircuitNoiseCached amplifier fingerprint cache circuit noiseFactor =
        (amplifier circuit noiseFactor,
          cache ++ [((fingerprint circuit, noiseFactor), amplifier circuit noiseFactor)],
          true)) := by
  cases hlook : cacheLookup (fingerprint circuit, noiseFactor) cache with
  | some stored =>
      have hr : amplifyCircuitNoiseCached amplifier fingerprint cache circuit noiseFactor =
          (stored, cache, false) := by
        simp [amplifyCircuitNoiseCached, hlook]
      refine ⟨?_, ?_, ?_, ?_, ?_⟩
      · intro h; rw [hr]; exact h
      · intro _; rw [hr]
      · intro k v hv; rw [hr]; exact hv
      · intro s hs
        cases hs
        exact hr
      · intro hnone; cases hnone
  | none =>
      by_cases hlen : cache.length < zneCacheMaxSize
      · have hr : amplifyCircuitNoiseCached amplifier fingerprint cache circuit noiseFactor =
            (amplifier circuit noiseFactor,
              cache ++ [((fingerprint circuit, noiseFactor), amplifier circuit noiseFactor)],
              true) := by
          simp [amplifyCircuitNoiseCached, hlook, hlen]
        refine ⟨?_, ?_, ?_, ?_, ?_⟩
        · intro _
          rw [hr]
          simp only [List.length_append, List.length_cons, List.length_nil]
          omega
        · intro h; omega
        · intro k v hv; rw [hr]; exact cacheLookup_append_of_some hv _
        · intro s hs; cases hs
        · intro _ _; exact hr
      · have hr : amplifyCircuitNoiseCached amplifier fingerprint cache circuit noiseFactor =
            (amplifier circuit noiseFactor, cache, true) := by
          simp [amplifyCircuitNoiseCached, hlook, hlen]
        refine ⟨?_, ?_, ?_, ?_, ?_⟩
        · intro h; rw [hr]; exact h
        · intro _; rw [hr]
        · intro k v hv; rw [hr]; exact hv
        · intro s hs; cases hs
        · intro _ h; omega

/-- C9 witness: a concrete one-entry cache hit and a concrete miss insertion. -/
theorem amplify_circuit_noise_cache_spec_witness :
    let amplifier : List Op → ℚ → List Op := fun c _ => c ++ c
    let fingerprint : List Op → ℕ := fun c => c.length
    let op : Op := ⟨"h", [0], false⟩
    let cache : List (CacheKey × List Op) := [((0, 2), [op])]
    (amplifyCircuitNoiseCached amplifier fingerprint cache [] 2 = ([op], cache, false)) ∧
    (amplifyCircuitNoiseCached amplifier fingerprint cache [op] 2 =
      ([op, op], cache ++ [((1, 2), [op, op])], true)) := by
  intro amplifier fingerprint op cache
  constructor
  · exact (amplify_circuit_noise_cache_spec amplifier fingerprint cache [] 2).2.2.2.1
      [op] (by decide)
  · exact (amplify_circuit_noise_cache_spec amplifier fingerprint cache [op] 2).2.2.2.2
      (by decide) (by decide)

/-- C7: for a validated strategy (non-empty, strictly increasing, all factors at
least one), `performs_zne` holds exactly when some noise factor exceeds one and
more than one distinct factor is configured, and `is_noop` holds exactly when
the configuration is the single factor one. -/
theorem performs_zne_is_noop_spec (nfs : List ℚ) (hne : nfs ≠ [])
    (hsorted : nfs.Sorted (· < ·)) (hge : ∀ x ∈ nfs, 1 ≤ x) :
    (performsZNE nfs = true ↔ (∃ x ∈ nfs, 1 < x) ∧ 1 < nfs.dedup.length) ∧
    (isNoop nfs = true ↔ nfs = [1]) := by
  have hnodup : nfs.Nodup := hsorted.nodup
  have hdedup : nfs.dedup = nfs := hnodup.dedup
  constructor
  · rw [hdedup]
    simp [performsZNE, performsNoiseAmplification, numNoiseFactors, List.any_eq_true]
  · have hiso : isNoop nfs = (!performsNoiseAmplification nfs) := by
      unfold isNoop performsZNE
      cases performsNoiseAmplification nfs <;> simp
    rw [hiso]
    constructor
    · intro h
      have hpna : performsNoiseAmplification nfs = false := by
        cases hp : performsNoiseAmplification nfs
        · rfl
        · rw [hp] at h; simp at h
      have hall : ∀ x ∈ nfs, x = 1 := by
        intro x hx
        have hnotgt : ¬(1 < x) := by
          intro hgt
          have hmem : performsNoiseAmplification nfs = true := by
            unfold performsNoiseAmplification
            rw [List.any_eq_true]
            exact ⟨x, hx, decide_eq_true hgt⟩
          rw [hmem] at hpna
          cases hpna
        exact le_antisymm (not_lt.mp hnotgt) (hge x hx)
      cases nfs with
      | nil => exact absurd rfl hne
      | cons a t =>
          have ha : a = 1 := hall a (List.mem_cons_self a t)
          cases t with
          | nil => rw [ha]
          | cons b u =>
              have hb : b = 1 := hall b (by simp)
              have hnd := hnodup
              rw [List.nodup_cons] at hnd
              exact absurd (by rw [ha, hb]; simp : a ∈ b :: u) hnd.1
    · intro h
      subst h
      decide

/-- C7 witness: `noise_factors = (1, 3)` performs ZNE and is not a no-op. -/
theorem performs_zne_is_noop_spec_witness :
    (performsZNE [(1 : ℚ), 3] = true ↔
      (∃ x ∈ [(1 : ℚ), 3], 1 < x) ∧ 1 < ([(1 : ℚ), 3]).dedup.length) ∧
    (isNoop [(1 : ℚ), 3] = true ↔ [(1 : ℚ), 3] = [1]) := by
  exact performs_zne_is_noop_spec [1, 3] (by decide) (by decide) (by decide)

/-- C1 counterexample: for a raw result with no `variance` key in its metadata,
the regression datum built by `_regression_data_from_result_group` carries the
raw default `0` as its only uncertainty entry — not the claimed `sigma_x = 1`
and `sigma_y = sqrt(variance)` with variance defaulting to `1`. -/
theorem regression_data_claim_counterexample :
    ∃ d : ℚ × ℚ × ℚ, regressionDataFromResultGroup [1] [2] [[]] = .ok [d] ∧
      d.2.2 ≠ claimSigmaY [] ∧ d.2.2 ≠ claimSigmaX := by
  have hy : claimSigmaY [] = 1 := by
    simp [claimSigmaY, ratSqrt, Nat.sqrt_one]
  refine ⟨(1, 2, 0), ?_, ?_, ?_⟩
  · rfl
  · rw [hy]; norm_num
  · simp [claimSigmaX]

/-- Projections of the 3-tuples built by `zipWith3` recover the zipped lists. -/
theorem zipWith3_tuple_projections {α β γ : Type} (g : γ → ℚ) :
    ∀ (ns : List α) (vs : List β) (ms : List γ),
      vs.length = ns.length → ms.length = ns.length →
      (List.zipWith3 (fun a b c => (a, b, g c)) ns vs ms).map (fun d => d.1) = ns ∧
      (List.zipWith3 (fun a b c => (a, b, g c)) ns vs ms).map (fun d => d.2.1) = vs ∧
      (List.zipWith3 (fun a b c => (a, b, g c)) ns vs ms).map (fun d => d.2.2) = ms.map g := by
  intro ns
  induction ns with
  | nil =>
      intro vs ms h1 h2
      have hv : vs = [] := List.length_eq_zero.mp (by simpa using h1)
      have hm : ms = [] := List.length_eq_zero.mp (by simpa using h2)
      subst hv; subst hm
      simp [List.zipWith3]
  | cons a t ih =>
      intro vs ms h1 h2
      cases vs with
      | nil => simp at h1
      | cons b bv =>
          cases ms with
          | nil => simp at h2
          | cons c cm =>
              have ih3 := ih bv cm (by simpa using h1) (by simpa using h2)
              simp only [List.zipWith3, List.map_cons]
              exact ⟨by rw [ih3.1], by rw [ih3.2.1], by rw [ih3.2.2]⟩

/-- C1 (amended): `_regression_data_from_result_group` rejects groups whose size
differs from the number of noise factors; otherwise it hands the extrapolator
3-tuples whose `x` are the configured noise factors, `y` the group values, and
third entry the raw metadata variance defaulting to `0` when the key is absent
(no `sigma_x`, no square root). -/
theorem regression_data_spec (noiseFactors values : List ℚ) (metadata : List Metadata) :
    (values.length ≠ noiseFactors.length →
      regressionDataFromResultGroup noiseFactors values metadata = .error .valueError) ∧
    (values.length = noiseFactors.length → metadata.length = noiseFactors.length →
      ∃ data, regressionDataFromResultGroup noiseFactors values metadata = .ok data ∧
        data.map (fun d => d.1) = noiseFactors ∧
        data.map (fun d => d.2.1) = values ∧
        data.map (fun d => d.2.2) =
          metadata.map (fun md => (List.lookup "variance" md).getD 0)) := by
  constructor
  · intro hne
    simp [regressionDataFromResultGroup, hne]
  · intro hlen hmlen
    have hproj := zipWith3_tuple_projections (fun md => (List.lookup "variance" md).getD 0)
      noiseFactors values metadata hlen hmlen
    exact ⟨_, by simp [regressionDataFromResultGroup, hlen], hproj.1, hproj.2.1, hproj.2.2⟩

/-- C1 (amended) witness: two noise factors, one variance present and one absent. -/
theorem regression_data_spec_witness :
    ∃ data, regressionDataFromResultGroup [1, 3] [2, 5] [[("variance", 4)], []] = .ok data ∧
      data.map (fun d => d.1) = [1, 3] ∧
      data.map (fun d => d.2.1) = [2, 5] ∧
      data.map (fun d => d.2.2) =
        ([[("variance", (4 : ℚ))], []]).map (fun md => (List.lookup "variance" md).getD 0) := by
  exact (regression_data_spec [1, 3] [2, 5] [[("variance", 4)], []]).2 (by decide) (by decide)

/-! ## Claims about the extrapolators -/

/-- C2 counterexample: with `sigma_y = (0, 1, 1)` and `y = (1, 2, 3)` the ratio
`sigma_y / y` is numerically zero at the first point, so the claimed fallback
would fit with all-ones sigma; the polynomial extrapolator's `curve_fit` call
nevertheless receives `sigma_y` unchanged. -/
theorem poly_sigma_fallback_counterexample :
    (polyCurveFitArgs 1 [1, 2, 3] [1, 2, 3] [0, 1, 1]).sigma = [0, 1, 1] ∧
    computeSigma [1, 2, 3] [0, 1, 1] = [1, 1, 1] ∧
    (polyCurveFitArgs 1 [1, 2, 3] [1, 2, 3] [0, 1, 1]).sigma ≠
      computeSigma [1, 2, 3] [0, 1, 1] := by
  have hc : computeSigma [1, 2, 3] [0, 1, 1] = [1, 1, 1] := by
    have hclose : isCloseZeroRatio (1 : ℚ) 0 = true := by
      unfold isCloseZeroRatio
      norm_num
    simp [computeSigma, List.any_cons, hclose]
  refine ⟨rfl, hc, ?_⟩
  rw [hc]
  intro h
  have h0 : (polyCurveFitArgs 1 [1, 2, 3] [1, 2, 3] [0, 1, 1]).sigma = [0, 1, 1] := rfl
  rw [h0] at h
  have : (0 : ℚ) = 1 := by injection h
  norm_num at this

/-- C2 (amended): the polynomial extrapolator's fit receives `sigma_y` unchanged
(weighted OLS with `absolute_sigma=True`, hence weights `1 / sigma_y ** 2`) with
no degenerate-ratio fallback; the all-ones fallback of
`OLSExtrapolator._compute_sigma` is applied only by the multi-exponential
extrapolator's fit, exactly when some ratio `sigma_y / y` is numerically zero. -/
theorem sigma_for_fit_spec (degree numTerms : ℕ) (x y sy : List ℚ) :
    (polyCurveFitArgs degree x y sy).sigma = sy ∧
    (polyCurveFitArgs degree x y sy).absoluteSigma = true ∧
    (multiExpCurveFitArgs numTerms x y sy).absoluteSigma = true ∧
    (multiExpCurveFitArgs numTerms x y sy).sigma = computeSigma y sy ∧
    ((List.zip sy y).any (fun p => isCloseZeroRatio p.2 p.1) = true →
      (multiExpCurveFitArgs numTerms x y sy).sigma = List.replicate sy.length 1) ∧
    ((List.zip sy y).any (fun p => isCloseZeroRatio p.2 p.1) = false →
      (multiExpCurveFitArgs numTerms x y sy).sigma = sy) := by
  refine ⟨rfl, rfl, rfl, rfl, ?_, ?_⟩
  · intro h
    simp [multiExpCurveFitArgs, computeSigma, h]
  · intro h
    simp [multiExpCurveFitArgs, computeSigma, h]

/-- C2 (amended) witness: the fallback branch taken at concrete degenerate data. -/
theorem sigma_for_fit_spec_witness :
    (multiExpCurveFitArgs 1 [1, 2, 3] [1, 2, 3] [0, 1, 1]).sigma =
      List.replicate ([(0 : ℚ), 1, 1]).length 1 := by
  have hclose : isCloseZeroRatio (1 : ℚ) 0 = true := by
    unfold isCloseZeroRatio
    norm_num
  exact (sigma_for_fit_spec 1 1 [1, 2, 3] [1, 2, 3] [0, 1, 1]).2.2.2.2.1
    (by simp [List.any_cons, hclose])

/-- Mapping rationals through `PyVal.real` passes the `isreal` filter. -/
theorem allReals_map_real (xs : List ℚ) : allReals (xs.map .real) = some xs := by
  induction xs with
  | nil => rfl
  | cons a t ih => simp [allReals, ih]

/-- C8: `extrapolate_zero` on validated real input of consistent sizes signals
the insufficient-data error, naming both counts, exactly when the number of
distinct x values is below `min_points`; with enough distinct points the
validated data is handed on.  `min_points` is `degree + 1` for the polynomial
extrapolator and `2 * num_terms + 1` for the multi-exponential one. -/
theorem extrapolate_zero_min_points_spec (m : ℕ) (xs ys sxs sys : List ℚ)
    (h1 : ys.length = xs.length) (h2 : sxs.length = xs.length) (h3 : sys.length = xs.length) :
    (∀ d : ℕ, polyMinPoints d = d + 1) ∧
    (∀ t : ℕ, multiExpMinPoints t = 2 * t + 1) ∧
    (xs.dedup.length < m →
      extrapolateZeroValidate m (.seq (xs.map .real)) (.seq (ys.map .real))
        (some (.seq (sxs.map .real))) (some (.seq (sys.map .real))) =
        .error (.insufficientData xs.dedup.length m)) ∧
    (m ≤ xs.dedup.length →
      extrapolateZeroValidate m (.seq (xs.map .real)) (.seq (ys.map .real))
        (some (.seq (sxs.map .real))) (some (.seq (sys.map .real))) =
        .ok (xs, ys, sxs, sys)) := by
  have hx : validateData (.seq (xs.map .real)) = .ok xs := by
    simp [validateData, allReals_map_real]
  have hy : validateData (.seq (ys.map .real)) = .ok ys := by
    simp [validateData, allReals_map_real]
  have hsx : validateSigma (some (.seq (sxs.map .real))) xs.length = .ok sxs := by
    simp [validateSigma, validateData, allReals_map_real]
  have hsy : validateSigma (some (.seq (sys.map .real))) ys.length = .ok sys := by
    simp [validateSigma, validateData, allReals_map_real]
  have hcross : crossValidateSizes xs ys sxs sys = .ok () := by
    simp [crossValidateSizes, h1, h2, h3]
  refine ⟨fun d => rfl, fun t => by simp [multiExpMinPoints]; ring, ?_, ?_⟩
  · intro hlt
    simp [extrapolateZeroValidate, Bind.bind, Except.bind, Functor.map, Except.map,
      hx, hy, hsx, hsy, hcross, validateMinPoints, hlt]
  · intro hge
    simp [extrapolateZeroValidate, Bind.bind, Except.bind, Functor.map, Except.map,
      hx, hy, hsx, hsy, hcross, validateMinPoints, Nat.not_lt.mpr hge, pure, Except.pure]

/-- C8 witness: a linear extrapolator (`min_points = 2`) rejecting one distinct
point and accepting two. -/
theorem extrapolate_zero_min_points_spec_witness :
    (extrapolateZeroValidate (polyMinPoints 1) (.seq ([(1 : ℚ), 1].map .real))
      (.seq ([(2 : ℚ), 3].map .real)) (some (.seq ([(1 : ℚ), 1].map .real)))
      (some (.seq ([(1 : ℚ), 1].map .real))) =
      .error (.insufficientData 1 2)) ∧
    (extrapolateZeroValidate (polyMinPoints 1) (.seq ([(1 : ℚ), 3].map .real))
      (.seq ([(2 : ℚ), 3].map .real)) (some (.seq ([(1 : ℚ), 1].map .real)))
      (some (.seq ([(1 : ℚ), 1].map .real))) =
      .ok ([1, 3], [2, 3], [1, 1], [1, 1])) := by
  constructor
  · have h := (extrapolate_zero_min_points_spec (polyMinPoints 1) [1, 1] [2, 3] [1, 1] [1, 1]
      (by decide) (by decide) (by decide)).2.2.1 (by decide)
    simpa using h
  · have h := (extrapolate_zero_min_points_spec (polyMinPoints 1) [1, 3] [2, 3] [1, 1] [1, 1]
      (by decide) (by decide) (by decide)).2.2.2 (by decide)
    simpa using h

/-! ## Claim about noise factor validation -/

/-- Real-valued elements that are at least one pass the element loop unchanged. -/
theorem validateElements_map_real (xs : List ℚ) (h : ∀ x ∈ xs, 1 ≤ x) :
    validateElements (xs.map .real) = .ok xs := by
  induction xs with
  | nil => rfl
  | cons a t ih =>
      have ha : ¬(a < 1) := not_lt.mpr (h a (List.mem_cons_self a t))
      have ht : validateElements (t.map .real) = .ok t :=
        ih (fun x hx => h x (List.mem_cons_of_mem a hx))
      simp [validateElements, ha, ht]

/-- Python `sorted(set(l))` is sorted in the weak sense. -/
theorem pySortedSet_sorted (l : List ℚ) : (pySortedSet l).Sorted (· ≤ ·) :=
  List.sorted_insertionSort _ _

/-- Python `sorted(set(l))` has no duplicates. -/
theorem pySortedSet_nodup (l : List ℚ) : (pySortedSet l).Nodup :=
  (List.perm_insertionSort _ _).nodup_iff.mpr (List.nodup_dedup l)

/-- Python `sorted(set(l))` has the same members as `l`. -/
theorem pySortedSet_mem (l : List ℚ) (x : ℚ) : x ∈ pySortedSet l ↔ x ∈ l := by
  rw [pySortedSet, (List.perm_insertionSort _ _).mem_iff, List.mem_dedup]

/-- Python `sorted(l)` has the same members as `l`. -/
theorem pySorted_mem (l : List ℚ) (x : ℚ) : x ∈ pySorted l ↔ x ∈ l :=
  (List.perm_insertionSort _ _).mem_iff

/-- Any offending element (non-real, or a real below one) makes the per-element
validation loop fail. -/
theorem validateElements_error (xs : List PyVal)
    (hbad : ∃ v ∈ xs, v = .nonReal ∨ ∃ q : ℚ, v = .real q ∧ q < 1) :
    ∃ e, validateElements xs = .error e := by
  induction xs with
  | nil =>
      obtain ⟨v, hv, _⟩ := hbad
      simp at hv
  | cons a t ih =>
      obtain ⟨v, hv, hb⟩ := hbad
      cases a with
      | nonReal => exact ⟨.typeError, rfl⟩
      | real q =>
          by_cases hq : q < 1
          · exact ⟨.valueError, by simp [validateElements, hq]⟩
          · have hvt : v ∈ t := by
              rcases List.mem_cons.mp hv with hva | hvt
              · exfalso
                subst hva
                rcases hb with hb | ⟨r, hr, hlt⟩
                · cases hb
                · injection hr with hqr
                  exact hq (hqr ▸ hlt)
              · exact hvt
            obtain ⟨e, he⟩ := ih ⟨v, hvt, hb⟩
            refine ⟨e, ?_⟩
            simp [validateElements, hq, he]

/-- C5: the noise factor setter accepts any non-empty real-valued sequence with
all elements at least one, normalizing it to the strictly ascending sequence
with the same members and warning exactly when sorting or de-duplication changed
it; `(5, 1, 3)` becomes `(1, 3, 5)` with a warning and `(1, 1, 3)` becomes
`(1, 3)` with a warning, while non-sequences, empty sequences, non-real elements
and values below one are rejected with an error. -/
theorem noise_factors_validation_spec :
    (∀ xs : List ℚ, xs ≠ [] → (∀ x ∈ xs, 1 ≤ x) →
      ∃ out warns, validateNoiseFactors (.seq (xs.map .real)) = .ok (out, warns) ∧
        out.Sorted (· < ·) ∧ (∀ x, x ∈ out ↔ x ∈ xs) ∧ (warns = [] ↔ out = xs)) ∧
    validateNoiseFactors (.seq ([5, 1, 3].map .real)) = .ok ([1, 3, 5], [.unordered]) ∧
    validateNoiseFactors (.seq ([1, 1, 3].map .real)) = .ok ([1, 3], [.duplicates]) ∧
    validateNoiseFactors .notSeq = .error .typeError ∧
    validateNoiseFactors (.seq []) = .error .valueError ∧
    (∀ xs : List PyVal, xs ≠ [] →
      (∃ v ∈ xs, v = .nonReal ∨ ∃ q : ℚ, v = .real q ∧ q < 1) →
      ∃ e, validateNoiseFactors (.seq xs) = .error e) := by
  refine ⟨?_, by rfl, by rfl, rfl, rfl, ?_⟩
  · intro xs hne hge
    have hok : validateElements (xs.map .real) = .ok xs := validateElements_map_real xs hge
    have hxe : (xs.map PyVal.real).isEmpty = false := by
      cases xs with
      | nil => exact absurd rfl hne
      | cons a t => rfl
    refine ⟨pySortedSet (pySorted xs),
      (if pySorted xs ≠ xs then [.unordered] else []) ++
        (if pySortedSet (pySorted xs) ≠ pySorted xs then [.duplicates] else []), ?_, ?_, ?_, ?_⟩
    · simp [validateNoiseFactors, hxe, hok]
    · exact (pySortedSet_sorted _).lt_of_le (pySortedSet_nodup _)
    · intro x
      rw [pySortedSet_mem, pySorted_mem]
    · constructor
      · intro hw
        have h1 : pySorted xs = xs := by
          by_contra h1
          simp [h1] at hw
        have h2 : pySortedSet (pySorted xs) = pySorted xs := by
          by_contra h2
          simp [h2] at hw
        rw [h2, h1]
      · intro ho
        have hs_le : xs.Sorted (· ≤ ·) := by rw [← ho]; exact pySortedSet_sorted _
        have hs_nd : xs.Nodup := by rw [← ho]; exact pySortedSet_nodup _
        have h1 : pySorted xs = xs := hs_le.insertionSort_eq
        have h2 : pySortedSet xs = xs := by
          rw [pySortedSet, hs_nd.dedup]
          exact hs_le.insertionSort_eq
        simp [h1, h2]
  · intro xs hne hbad
    obtain ⟨e, he⟩ := validateElements_error xs hbad
    have hxe : xs.isEmpty = false := by
      cases xs with
      | nil => exact absurd rfl hne
      | cons a t => rfl
    exact ⟨e, by simp [validateNoiseFactors, hxe, he]⟩

/-- C5 witness: the acceptance branch at `(5, 1, 3)` and the rejection branch at
`(0,)`. -/
theorem noise_factors_validation_spec_witness :
    (∃ out warns, validateNoiseFactors (.seq ([(5 : ℚ), 1, 3].map .real)) = .ok (out, warns) ∧
      out.Sorted (· < ·) ∧ (∀ x, x ∈ out ↔ x ∈ [(5 : ℚ), 1, 3]) ∧
      (warns = [] ↔ out = [(5 : ℚ), 1, 3])) ∧
    (∃ e, validateNoiseFactors (.seq [.real 0]) = .error e) := by
  constructor
  · exact noise_factors_validation_spec.1 [5, 1, 3] (by decide) (by norm_num)
  · exact noise_factors_validation_spec.2.2.2.2.2 [.real 0] (by decide)
      ⟨.real 0, by decide, Or.inr ⟨0, rfl, by norm_num⟩⟩

end ZNE
